import Mathlib

/-!
# Verification of geo-engine/datatypes (core: PointCollection and TimeInterval)

Shallow embedding of the repository's core data types and algorithms:

* `src/collections/point_collection.rs` — a columnar point collection
  (`feature_indices : Vec<usize>` delimiting runs in a flat
  `coordinates : Vec<Coordinate>` buffer) with validity checking, growth,
  last-feature removal, and the four filtering operations (copying and
  in-place, by boolean mask and by predicate).
* `src/collections/feature_collection.rs` — the `FeatureCollection` trait
  surface (`len`, `is_empty`, `is_simple`, `remove_last_feature`) and its
  error enum.
* `src/primitives/time_interval.rs` — half-open `TimeInterval` over `i64`
  with `contains`/`intersects`/`union` and the three-valued partial order.

Modelling conventions:

* `Coordinate` is an `(f64, f64)` pair that the collection code never
  inspects (it only moves coordinates around), so the collection is
  embedded polymorphically over a coordinate type `α`.
* Rust `Vec` becomes `List`; `usize`/`i64` become `Nat`/`Int` (no
  arithmetic here can overflow a 64-bit machine integer for the inputs the
  invariants admit, and the algorithms do no wrapping arithmetic).
* `&mut self` methods become state-passing functions.  The fallible
  in-place methods return the post-state paired with an optional error so
  that "the receiver is left unmodified on failure" is expressible.
* Rust slice indexing / `copy_within` / `resize_with`-truncation are
  modelled with `List.drop`/`List.take` based operations; out-of-bounds
  panics cannot occur on the valid inputs the theorems quantify over.
-/

/-- Rust `slice.windows(2)` specialised to the pairs it yields:
`windows2 [a, b, c] = [(a, b), (b, c)]`. -/
def windows2 : List Nat → List (Nat × Nat)
  | a :: b :: rest => (a, b) :: windows2 (b :: rest)
  | _ => []

/-- Rust slice `&l[s..e]`. -/
def subSlice {α : Type} (l : List α) (s e : Nat) : List α :=
  (l.drop s).take (e - s)

/-- Rust `Vec::copy_within(s..e, d)`: copy `l[s..e]` to positions starting
at `d`, reading the source as it was before the copy (memmove semantics). -/
def copyWithin {α : Type} (l : List α) (s e d : Nat) : List α :=
  l.take d ++ (l.drop s).take (e - s) ++ l.drop (d + (e - s))

/-- Spec-side selector: the elements of `xs` at indices where `mask` is
`true`, in their original relative order. -/
def maskSelect {β : Type} : List Bool → List β → List β
  | f :: fs, x :: xs => if f then x :: maskSelect fs xs else maskSelect fs xs
  | _, _ => []

/-- Index-aware selector used to characterise the filtering loops: keeps
element `x` at position `i` iff `dec i x`. -/
def selectIdx {β : Type} (dec : Nat → β → Bool) : Nat → List β → List β
  | _, [] => []
  | i, x :: xs =>
    if dec i x then x :: selectIdx dec (i + 1) xs else selectIdx dec (i + 1) xs

/-- Offsets of a list of runs laid out consecutively starting at `base`:
`offsetsFrom 0 [r₀, r₁, …] = [0, |r₀|, |r₀|+|r₁|, …]` (without the final
total). -/
def offsetsFrom {α : Type} : Nat → List (List α) → List Nat
  | _, [] => []
  | base, r :: rs => base :: offsetsFrom (base + r.length) rs

/-- The runs of features `i, i+1, …` of offsets `F` over coordinates `C`
that `dec` retains, with `dec` evaluated on the *original* coordinate
slices.  Used to characterise the in-place compaction loop. -/
def keptFrom {α : Type} (dec : Nat → List α → Bool) (F : List Nat) (C : List α)
    (i : Nat) : List (List α) :=
  selectIdx dec i ((windows2 (F.drop i)).map fun se => subSlice C se.1 se.2)

/-! ## TimeInterval (`src/primitives/time_interval.rs`) -/

/-- Half-open time interval `[start, end)` over `i64` milliseconds.  The
Rust field `end` is a Lean keyword, hence `end_`. -/
structure TimeInterval where
  start : Int
  end_ : Int
deriving DecidableEq, Repr

/-- Error enum of `time_interval.rs`. -/
inductive TimeIntervalError where
  | EndBeforeStart (start end_ : Int)
  | UnmatchedIntervals (i1 i2 : TimeInterval)
deriving DecidableEq, Repr

namespace TimeInterval

/-- `TimeInterval::new`: checks `start <= end`. -/
def new (start end_ : Int) : Except TimeIntervalError TimeInterval :=
  if start ≤ end_ then .ok ⟨start, end_⟩
  else .error (.EndBeforeStart start end_)

/-- `TimeInterval::new_unchecked`. -/
def new_unchecked (start end_ : Int) : TimeInterval := ⟨start, end_⟩

/-- `TimeInterval::contains`. -/
def contains (a b : TimeInterval) : Bool :=
  decide (a.start ≤ b.start) && decide (b.end_ ≤ a.end_)

/-- `TimeInterval::intersects`: `self.start < other.end && self.end > other.start`. -/
def intersects (a b : TimeInterval) : Bool :=
  decide (a.start < b.end_) && decide (a.end_ > b.start)

/-- `TimeInterval::union`: span of the two intervals when they intersect or
touch, error otherwise. -/
def union (a b : TimeInterval) : Except TimeIntervalError TimeInterval :=
  if a.intersects b || decide (a.start = b.end_) || decide (a.end_ = b.start) then
    .ok ⟨min a.start b.start, max a.end_ b.end_⟩
  else
    .error (.UnmatchedIntervals a b)

/-- `PartialOrd::partial_cmp` for `TimeInterval` (named `cmpPartial` because
of Lean naming restrictions): `Equal` on structural equality, `Less` when
`self.end <= other.start`, `Greater` when `self.start >= other.end`, and
incomparable (`none`) otherwise. -/
def cmpPartial (a b : TimeInterval) : Option Ordering :=
  if a = b then some .eq
  else if a.end_ ≤ b.start then some .lt
  else if a.start ≥ b.end_ then some .gt
  else none

end TimeInterval

/-! ## FeatureCollection errors (`src/collections/feature_collection.rs`) -/

/-- Error enum of `feature_collection.rs`. -/
inductive FeatureCollectionError where
  | UnmatchedFeatureIndices
  | DeleteFromEmpty
deriving DecidableEq, Repr

/-- Modelled from the spec: the error kind of the external `Filterable`
capability (the `operations` module is not part of the provided sources;
spec §4.4/§6 name its single error `MaskDoesNotMatchFeatures`, raised when
a mask's length disagrees with the feature count). -/
inductive FilterableError where
  | MaskDoesNotMatchFeatures
deriving DecidableEq, Repr

/-! ## PointCollection (`src/collections/point_collection.rs`) -/

/-- The columnar point collection.  `feature_indices` delimits per-feature
runs in the flat `coordinates` buffer; coordinates are opaque to all of the
collection's algorithms, so the type is polymorphic in them. -/
structure PointCollection (α : Type) where
  feature_indices : List Nat
  coordinates : List α
deriving DecidableEq, Repr

namespace PointCollection

variable {α : Type}

/-- `PointCollection::new` / `Default::default`: offsets `[0]`, no
coordinates. -/
def new : PointCollection α := ⟨[0], []⟩

/-- Rust `feature_indices.windows(2).any(|c| c[0] >= c[1])` from
`is_valid`. -/
def hasNonincreasingPair : List Nat → Bool
  | a :: b :: rest => decide (b ≤ a) || hasNonincreasingPair (b :: rest)
  | _ => false

/-- `PointCollection::is_valid`: offsets non-empty, last offset equal to
the coordinate count, offsets strictly increasing pairwise. -/
def is_valid (pc : PointCollection α) : Bool :=
  match pc.feature_indices.getLast? with
  | none => false
  | some last_feature_index =>
    if last_feature_index ≠ pc.coordinates.length then false
    else if hasNonincreasingPair pc.feature_indices then false
    else true

/-- `PointCollection::from_data`: build then validate. -/
def from_data (feature_indices : List Nat) (coordinates : List α) :
    Except FeatureCollectionError (PointCollection α) :=
  let inst : PointCollection α := ⟨feature_indices, coordinates⟩
  if inst.is_valid then .ok inst
  else .error .UnmatchedFeatureIndices

/-- `PointCollection::from_data_unchecked`. -/
def from_data_unchecked (feature_indices : List Nat) (coordinates : List α) :
    PointCollection α :=
  ⟨feature_indices, coordinates⟩

/-- `PointCollection::add_point`: push the coordinate, then push the new
coordinate count as the trailing offset. -/
def add_point (pc : PointCollection α) (coordinate : α) : PointCollection α :=
  let coordinates := pc.coordinates ++ [coordinate]
  ⟨pc.feature_indices ++ [coordinates.length], coordinates⟩

/-- `PointCollection::add_multipoint`: no-op on an empty slice, otherwise
append all coordinates then one trailing offset. -/
def add_multipoint (pc : PointCollection α) (cs : List α) : PointCollection α :=
  if cs.isEmpty then pc
  else
    let coordinates := pc.coordinates ++ cs
    ⟨pc.feature_indices ++ [coordinates.length], coordinates⟩

/-- `FeatureCollection::len` for `PointCollection`:
`feature_indices.len() - 1`. -/
def len (pc : PointCollection α) : Nat :=
  pc.feature_indices.length - 1

/-- `FeatureCollection::is_empty` (default method): `len() == 0`. -/
def is_empty (pc : PointCollection α) : Bool :=
  decide (pc.len = 0)

/-- `FeatureCollection::is_simple` for `PointCollection`:
`(feature_indices.len() - 1) == coordinates.len()`. -/
def is_simple (pc : PointCollection α) : Bool :=
  decide (pc.feature_indices.length - 1 = pc.coordinates.length)

/-- `FeatureCollection::remove_last_feature` for `PointCollection`: error
on `feature_indices.len() <= 1`, otherwise pop the trailing offset and
truncate the coordinates to the new last offset (`Vec::resize_with` with an
`unreachable!` filler, i.e. a pure truncation on every valid input).  The
post-state is returned together with the optional error, so the error case
visibly leaves the receiver untouched. -/
def remove_last_feature (pc : PointCollection α) :
    PointCollection α × Option FeatureCollectionError :=
  if pc.feature_indices.length ≤ 1 then (pc, some .DeleteFromEmpty)
  else
    let fi := pc.feature_indices.dropLast
    (⟨fi, pc.coordinates.take (fi.getLast?.getD 0)⟩, none)

/-- The per-feature coordinate runs of a collection, in order — the
mathematical content of `geo_multi_points_iter` (`windows(2)` over the
offsets, slicing the coordinate buffer). -/
def features (pc : PointCollection α) : List (List α) :=
  (windows2 pc.feature_indices).map fun se => subSlice pc.coordinates se.1 se.2

/-- The collection that lays out the given runs consecutively from offset
0: the canonical output shape of all four filtering operations. -/
def buildCollection (runs : List (List α)) : PointCollection α :=
  ⟨offsetsFrom 0 runs ++ [runs.flatten.length], runs.flatten⟩

/-- Loop of `Filterable::filter`: walk `windows(2)` zipped with the mask,
appending the current output length as an offset and the feature's run for
each `true` flag. -/
def filterMaskGo (coords : List α) :
    List ((Nat × Nat) × Bool) → List Nat → List α → List Nat × List α
  | [], ffi, fc => (ffi, fc)
  | ((s, e), flag) :: rest, ffi, fc =>
    if flag then
      filterMaskGo coords rest (ffi ++ [fc.length]) (fc ++ subSlice coords s e)
    else
      filterMaskGo coords rest ffi fc

/-- `Filterable::filter`: length-check the mask, then rebuild into fresh
buffers, appending the final total offset. -/
def filter (pc : PointCollection α) (mask : List Bool) :
    Except FilterableError (PointCollection α) :=
  if mask.length ≠ pc.feature_indices.length - 1 then
    .error .MaskDoesNotMatchFeatures
  else
    let acc := filterMaskGo pc.coordinates ((windows2 pc.feature_indices).zip mask) [] []
    .ok ⟨acc.1 ++ [acc.2.length], acc.2⟩

/-- Loop of `Filterable::filter_with_predicate`: like `filterMaskGo` but
the retention decision comes from the predicate applied to the feature's
coordinate slice. -/
def filterPredGo (coords : List α) (p : List α → Bool) :
    List (Nat × Nat) → List Nat → List α → List Nat × List α
  | [], ffi, fc => (ffi, fc)
  | (s, e) :: rest, ffi, fc =>
    let cs := subSlice coords s e
    if p cs then
      filterPredGo coords p rest (ffi ++ [fc.length]) (fc ++ cs)
    else
      filterPredGo coords p rest ffi fc

/-- `Filterable::filter_with_predicate`. -/
def filter_with_predicate (pc : PointCollection α) (p : List α → Bool) :
    PointCollection α :=
  let acc := filterPredGo pc.coordinates p (windows2 pc.feature_indices) [] []
  ⟨acc.1 ++ [acc.2.length], acc.2⟩

/-- Mutable loop state of the in-place filters: `feature_index`,
`coordinate_start`, and the two buffers being compacted. -/
structure IPState (α : Type) where
  featureIndex : Nat
  coordinateStart : Nat
  fi : List Nat
  coords : List α
deriving Repr

/-- One retained-feature compaction step shared by both in-place loops:
write `coordinate_start` at `feature_index` in the offsets, copy the run
down, and advance both cursors. -/
def ipStep (st : IPState α) (s e : Nat) : IPState α :=
  ⟨st.featureIndex + 1, st.coordinateStart + (e - s),
    st.fi.set st.featureIndex st.coordinateStart,
    copyWithin st.coords s e st.coordinateStart⟩

/-- Loop of `Filterable::filter_inplace`: iterate `mask` with its index,
reading `(start, end)` from the current offsets and compacting the current
coordinates for each `true` flag. -/
def inplaceMaskGo : List Bool → Nat → IPState α → IPState α
  | [], _, st => st
  | flag :: rest, i, st =>
    let s := st.fi.getD i 0
    let e := st.fi.getD (i + 1) 0
    if flag then inplaceMaskGo rest (i + 1) (ipStep st s e)
    else inplaceMaskGo rest (i + 1) st

/-- Generic indexed in-place loop: `m` iterations starting at index `i`,
deciding retention with `dec` applied to the index and the feature's
*current* coordinate slice.  `filter_inplace_with_predicate`'s
`for i in 0..self.len()` loop is exactly this with `dec _ run = p run`;
`filter_inplace`'s loop agrees with it (lemma `inplaceMaskGo_eq_inplaceGo`)
with `dec i _ = mask[i]`. -/
def inplaceGo (dec : Nat → List α → Bool) : Nat → Nat → IPState α → IPState α
  | 0, _, st => st
  | m + 1, i, st =>
    let s := st.fi.getD i 0
    let e := st.fi.getD (i + 1) 0
    if dec i (subSlice st.coords s e) then inplaceGo dec m (i + 1) (ipStep st s e)
    else inplaceGo dec m (i + 1) st

/-- Epilogue of both in-place filters: write the final total offset at
`feature_index`, truncate the offsets to `feature_index + 1` entries and
the coordinates to `coordinate_start` entries. -/
def inplaceFinish (st : IPState α) : PointCollection α :=
  ⟨(st.fi.set st.featureIndex st.coordinateStart).take (st.featureIndex + 1),
    st.coords.take st.coordinateStart⟩

/-- `Filterable::filter_inplace`: length-check before any mutation, then
compact.  Post-state paired with the optional error. -/
def filter_inplace (pc : PointCollection α) (mask : List Bool) :
    PointCollection α × Option FilterableError :=
  if mask.length ≠ pc.feature_indices.length - 1 then
    (pc, some .MaskDoesNotMatchFeatures)
  else
    (inplaceFinish (inplaceMaskGo mask 0 ⟨0, 0, pc.feature_indices, pc.coordinates⟩),
      none)

/-- `Filterable::filter_inplace_with_predicate`: `self.len()` iterations of
the compaction loop, deciding with the predicate on the current slice. -/
def filter_inplace_with_predicate (pc : PointCollection α) (p : List α → Bool) :
    PointCollection α :=
  inplaceFinish
    (inplaceGo (fun _ run => p run) (pc.feature_indices.length - 1) 0
      ⟨0, 0, pc.feature_indices, pc.coordinates⟩)

/-- Propositional form of `is_valid` (§3 invariant): offsets non-empty,
strictly increasing pairwise, final offset equal to the coordinate
count. -/
def ValidProp (pc : PointCollection α) : Prop :=
  pc.feature_indices ≠ [] ∧
  List.Chain' (· < ·) pc.feature_indices ∧
  pc.feature_indices.getLast? = some pc.coordinates.length

instance (pc : PointCollection α) : Decidable pc.ValidProp := by
  unfold ValidProp; infer_instance

end PointCollection

/-! ## Generic list lemmas -/

theorem getD_drop {α : Type} (l : List α) (i j : Nat) (d : α) :
    (l.drop i).getD j d = l.getD (i + j) d := by
  simp [List.getD_eq_getElem?_getD, List.getElem?_drop]

theorem getD_of_drop_cons {α : Type} {l : List α} {i : Nat} {a : α} {t : List α}
    (h : l.drop i = a :: t) (d : α) : l.getD i d = a := by
  have := getD_drop l i 0 d
  rw [h] at this
  simpa using this.symm

theorem drop_succ_of_drop_cons {α : Type} {l : List α} {i : Nat} {a : α} {t : List α}
    (h : l.drop i = a :: t) : l.drop (i + 1) = t := by
  have : (l.drop i).drop 1 = l.drop (i + 1) := List.drop_drop 1 i l
  rw [h] at this
  simpa using this.symm

theorem getLast?_drop {α : Type} (l : List α) (i : Nat) (h : i < l.length) :
    (l.drop i).getLast? = l.getLast? := by
  induction l generalizing i with
  | nil => simp at h
  | cons a t ih =>
    cases i with
    | zero => simp
    | succ j =>
      simp only [List.length_cons, Nat.succ_lt_succ_iff] at h
      have ht : t ≠ [] := by
        intro hnil; rw [hnil] at h; exact absurd h (by simp)
      obtain ⟨b, t', rfl⟩ := List.exists_cons_of_ne_nil ht
      rw [List.getLast?_cons_cons]
      simpa using ih j h

theorem set_append_len {α : Type} (out : List α) (d : α) (dt : List α) (v : α) :
    (out ++ d :: dt).set out.length v = out ++ v :: dt := by
  simp [List.set_append]

theorem take_append_len1 {α : Type} (A : List α) (x : α) (t : List α) :
    (A ++ x :: t).take (A.length + 1) = A ++ [x] := by
  have := @List.take_append α A (x :: t) 1
  simpa using this

theorem head_le_getLast {l : List Nat} (h : List.Chain' (· < ·) l) :
    ∀ x ∈ l.head?, ∀ y ∈ l.getLast?, x ≤ y := by
  induction l with
  | nil => simp
  | cons a t ih =>
    cases t with
    | nil => simp
    | cons b t' =>
      intro x hx y hy
      simp only [List.head?_cons, Option.mem_def, Option.some.injEq] at hx
      subst hx
      rw [List.getLast?_cons_cons] at hy
      rw [List.chain'_cons] at h
      have hb := ih h.2 b (by simp) y hy
      omega

/-! ## `windows2` lemmas -/

@[simp] theorem windows2_nil : windows2 [] = [] := rfl

@[simp] theorem windows2_singleton (a : Nat) : windows2 [a] = [] := rfl

@[simp] theorem windows2_cons_cons (a b : Nat) (t : List Nat) :
    windows2 (a :: b :: t) = (a, b) :: windows2 (b :: t) := rfl

theorem windows2_length (l : List Nat) : (windows2 l).length = l.length - 1 := by
  induction l with
  | nil => rfl
  | cons a t ih =>
    cases t with
    | nil => rfl
    | cons b t' => simp [windows2_cons_cons, ih]

theorem windows2_bounds {l : List Nat} (h : List.Chain' (· < ·) l) :
    ∀ se ∈ windows2 l, se.1 < se.2 ∧ ∀ z ∈ l.getLast?, se.2 ≤ z := by
  induction l with
  | nil => simp
  | cons a t ih =>
    cases t with
    | nil => simp
    | cons b t' =>
      rw [List.chain'_cons] at h
      intro se hse
      rw [windows2_cons_cons, List.mem_cons] at hse
      rcases hse with rfl | hse
      · exact ⟨h.1, by
          rw [List.getLast?_cons_cons]
          exact head_le_getLast h.2 b (by simp)⟩
      · have := ih h.2 se hse
        exact ⟨this.1, by rw [List.getLast?_cons_cons]; exact this.2⟩

theorem windows2_dropLast (l : List Nat) :
    windows2 l.dropLast = (windows2 l).dropLast := by
  induction l with
  | nil => rfl
  | cons a t ih =>
    cases t with
    | nil => rfl
    | cons b t' =>
      cases t' with
      | nil => rfl
      | cons c t'' =>
        have hne : windows2 (b :: c :: t'') ≠ [] := by simp
        calc windows2 (a :: b :: c :: t'').dropLast
            = (a, b) :: windows2 (b :: c :: t'').dropLast := by
              simp [List.dropLast_cons₂, windows2_cons_cons]
          _ = (a, b) :: (windows2 (b :: c :: t'')).dropLast := by rw [ih]
          _ = ((a, b) :: windows2 (b :: c :: t'')).dropLast := by
              rw [List.dropLast_cons_of_ne_nil hne]

/-! ## `subSlice` and `copyWithin` lemmas -/

theorem subSlice_length {α : Type} {l : List α} {s e : Nat}
    (hse : s ≤ e) (hel : e ≤ l.length) : (subSlice l s e).length = e - s := by
  simp only [subSlice, List.length_take, List.length_drop]
  omega

theorem subSlice_ne_nil {α : Type} {l : List α} {s e : Nat}
    (hse : s < e) (hel : e ≤ l.length) : subSlice l s e ≠ [] := by
  have := subSlice_length (Nat.le_of_lt hse) hel
  intro h
  rw [h] at this
  simp at this
  omega

theorem subSlice_take {α : Type} {l : List α} {s e t : Nat} (het : e ≤ t) :
    subSlice (l.take t) s e = subSlice l s e := by
  simp only [subSlice, List.drop_take, List.take_take]
  congr 1
  omega

theorem subSlice_append {α : Type} (pre rest : List α) (k : Nat) :
    subSlice (pre ++ rest) pre.length (pre.length + k) = rest.take k := by
  simp only [subSlice, List.drop_left]
  congr 1
  omega

theorem copyWithin_length {α : Type} {l : List α} {s e d : Nat}
    (hse : s ≤ e) (hel : e ≤ l.length) (hd : d + (e - s) ≤ l.length) :
    (copyWithin l s e d).length = l.length := by
  simp only [copyWithin, List.length_append, List.length_take, List.length_drop]
  omega

theorem copyWithin_take {α : Type} {l : List α} {s e d : Nat}
    (hse : s ≤ e) (hel : e ≤ l.length) (hd : d + (e - s) ≤ l.length) :
    (copyWithin l s e d).take (d + (e - s)) = l.take d ++ (l.drop s).take (e - s) := by
  rw [copyWithin]
  apply List.take_left'
  simp only [List.length_append, List.length_take, List.length_drop]
  omega

theorem copyWithin_drop {α : Type} {l : List α} {s e d x : Nat}
    (hse : s ≤ e) (hel : e ≤ l.length) (hd : d + (e - s) ≤ l.length)
    (hx : d + (e - s) ≤ x) : (copyWithin l s e d).drop x = l.drop x := by
  rw [copyWithin]
  rw [List.drop_append_eq_append_drop]
  have hlen : (l.take d ++ (l.drop s).take (e - s)).length = d + (e - s) := by
    simp only [List.length_append, List.length_take, List.length_drop]
    omega
  rw [List.drop_eq_nil_of_le (by omega), List.nil_append, hlen, List.drop_drop]
  congr 1
  omega

/-! ## `offsetsFrom`, `selectIdx`, `maskSelect` lemmas -/

@[simp] theorem offsetsFrom_nil {α : Type} (b : Nat) :
    offsetsFrom b ([] : List (List α)) = [] := rfl

@[simp] theorem offsetsFrom_cons {α : Type} (b : Nat) (r : List α) (rs : List (List α)) :
    offsetsFrom b (r :: rs) = b :: offsetsFrom (b + r.length) rs := rfl

theorem offsetsFrom_length {α : Type} (b : Nat) (rs : List (List α)) :
    (offsetsFrom b rs).length = rs.length := by
  induction rs generalizing b with
  | nil => rfl
  | cons r rs ih => simp [ih]

theorem selectIdx_length_le {β : Type} (dec : Nat → β → Bool) (i : Nat) (xs : List β) :
    (selectIdx dec i xs).length ≤ xs.length := by
  induction xs generalizing i with
  | nil => simp [selectIdx]
  | cons x xs ih =>
    simp only [selectIdx]
    split
    · simpa using Nat.succ_le_succ (ih (i + 1))
    · exact Nat.le_succ_of_le (ih (i + 1))

theorem selectIdx_subset {β : Type} (dec : Nat → β → Bool) (i : Nat) (xs : List β) :
    ∀ x ∈ selectIdx dec i xs, x ∈ xs := by
  induction xs generalizing i with
  | nil => simp [selectIdx]
  | cons y xs ih =>
    intro x hx
    simp only [selectIdx] at hx
    split at hx
    · rcases List.mem_cons.mp hx with rfl | hx
      · exact List.mem_cons_self _ _
      · exact List.mem_cons_of_mem _ (ih (i + 1) x hx)
    · exact List.mem_cons_of_mem _ (ih (i + 1) x hx)

theorem selectIdx_pred {β : Type} (p : β → Bool) (i : Nat) (xs : List β) :
    selectIdx (fun _ x => p x) i xs = xs.filter p := by
  induction xs generalizing i with
  | nil => rfl
  | cons x xs ih =>
    simp only [selectIdx, List.filter_cons, ih]

theorem selectIdx_mask {β : Type} (mask : List Bool) (xs : List β) :
    ∀ i, i + xs.length ≤ mask.length →
    selectIdx (fun j _ => mask.getD j false) i xs = maskSelect (mask.drop i) xs := by
  induction xs with
  | nil =>
    intro i _
    cases h : mask.drop i <;> rfl
  | cons x xs ih =>
    intro i hlen
    have hi : i < mask.length := by simp at hlen; omega
    obtain ⟨f, rest, hdrop⟩ : ∃ f rest, mask.drop i = f :: rest := by
      cases h : mask.drop i with
      | nil =>
        have := List.length_drop i mask
        rw [h] at this
        simp at this
        omega
      | cons f rest => exact ⟨f, rest, rfl⟩
    have hget : mask.getD i false = f := getD_of_drop_cons hdrop false
    have hrest : mask.drop (i + 1) = rest := drop_succ_of_drop_cons hdrop
    have hih := ih (i + 1) (by simp at hlen ⊢; omega)
    rw [hrest] at hih
    simp only [selectIdx, hget, hdrop, maskSelect]
    cases f <;> simp only [if_true, if_false, hih, cond_true, cond_false]

theorem maskSelect_subset {β : Type} (mask : List Bool) (xs : List β) :
    ∀ x ∈ maskSelect mask xs, x ∈ xs := by
  induction xs generalizing mask with
  | nil => intro x hx; cases mask <;> simp [maskSelect] at hx
  | cons y xs ih =>
    intro x hx
    cases mask with
    | nil => simp [maskSelect] at hx
    | cons f fs =>
      simp only [maskSelect] at hx
      split at hx
      · rcases List.mem_cons.mp hx with rfl | hx
        · exact List.mem_cons_self _ _
        · exact List.mem_cons_of_mem _ (ih fs x hx)
      · exact List.mem_cons_of_mem _ (ih fs x hx)

/-! ## Validity characterisation -/

namespace PointCollection

theorem hasNonincreasingPair_eq_false_iff (l : List Nat) :
    hasNonincreasingPair l = false ↔ List.Chain' (· < ·) l := by
  induction l with
  | nil => simp [hasNonincreasingPair]
  | cons a t ih =>
    cases t with
    | nil => simp [hasNonincreasingPair]
    | cons b t' =>
      simp only [hasNonincreasingPair, Bool.or_eq_false_iff, decide_eq_false_iff_not,
        Nat.not_le, List.chain'_cons, ih]

theorem is_valid_iff {α : Type} (pc : PointCollection α) :
    pc.is_valid = true ↔ pc.ValidProp := by
  cases h : pc.feature_indices.getLast? with
  | none =>
    rw [List.getLast?_eq_none_iff] at h
    simp [is_valid, ValidProp, h]
  | some lfi =>
    have hne : pc.feature_indices ≠ [] := by
      intro hnil
      rw [hnil] at h
      simp at h
    simp only [is_valid, ValidProp, h]
    by_cases h1 : lfi = pc.coordinates.length
    · by_cases h2 : hasNonincreasingPair pc.feature_indices = true
      · rw [if_neg (fun hh => hh h1), if_pos h2]
        simp only [Bool.false_eq_true, false_iff]
        rintro ⟨-, hch, -⟩
        rw [← hasNonincreasingPair_eq_false_iff] at hch
        rw [h2] at hch
        exact absurd hch (by decide)
      · rw [if_neg (fun hh => hh h1), if_neg h2]
        simp only [true_iff]
        have h2' : hasNonincreasingPair pc.feature_indices = false := by
          cases hfoo : hasNonincreasingPair pc.feature_indices
          · rfl
          · exact absurd hfoo h2
        exact ⟨hne, (hasNonincreasingPair_eq_false_iff _).mp h2', by rw [h1]⟩
    · rw [if_pos h1]
      simp only [Bool.false_eq_true, false_iff]
      rintro ⟨-, -, h3⟩
      exact h1 (Option.some_inj.mp h3)

/-! ## Features of a collection -/

theorem features_run_length {α : Type} {pc : PointCollection α} (hv : pc.ValidProp) :
    ∀ se ∈ windows2 pc.feature_indices,
      (subSlice pc.coordinates se.1 se.2).length = se.2 - se.1 := by
  intro se hse
  obtain ⟨h1, h2⟩ := windows2_bounds hv.2.1 se hse
  exact subSlice_length (Nat.le_of_lt h1)
    (h2 pc.coordinates.length (Option.mem_def.mpr hv.2.2))

theorem features_ne_nil {α : Type} {pc : PointCollection α} (hv : pc.ValidProp) :
    ∀ r ∈ pc.features, r ≠ [] := by
  intro r hr
  simp only [features, List.mem_map] at hr
  obtain ⟨se, hse, rfl⟩ := hr
  obtain ⟨h1, h2⟩ := windows2_bounds hv.2.1 se hse
  exact subSlice_ne_nil h1 (h2 pc.coordinates.length (Option.mem_def.mpr hv.2.2))

/-! ## `buildCollection`: the canonical output of all four filters -/

theorem features_buildCollection_aux {α : Type} (rs : List (List α)) :
    ∀ pre : List α,
      (windows2 (offsetsFrom pre.length rs ++ [(pre ++ rs.flatten).length])).map
        (fun se => subSlice (pre ++ rs.flatten) se.1 se.2) = rs := by
  induction rs with
  | nil => intro pre; simp
  | cons r rs ih =>
    intro pre
    obtain ⟨M', hM⟩ :
        ∃ M', offsetsFrom (pre ++ r).length rs ++ [((pre ++ r) ++ rs.flatten).length]
          = (pre ++ r).length :: M' := by
      cases rs with
      | nil => exact ⟨[], by simp⟩
      | cons r2 rs' =>
        refine ⟨offsetsFrom ((pre ++ r).length + r2.length) rs'
            ++ [((pre ++ r) ++ (r2 :: rs').flatten).length], ?_⟩
        rw [offsetsFrom_cons, List.cons_append]
    have hC : pre ++ (r :: rs).flatten = (pre ++ r) ++ rs.flatten := by
      simp
    have hL : offsetsFrom pre.length (r :: rs) ++ [(pre ++ (r :: rs).flatten).length]
        = pre.length :: ((pre ++ r).length :: M') := by
      rw [offsetsFrom_cons, hC, ← List.length_append pre r, List.cons_append, hM]
    rw [hL, hC, windows2_cons_cons, List.map_cons, ← hM]
    rw [ih (pre ++ r)]
    congr 1
    have : subSlice ((pre ++ r) ++ rs.flatten) pre.length ((pre ++ r).length)
        = (r ++ rs.flatten).take r.length := by
      rw [List.append_assoc, List.length_append]
      exact subSlice_append pre (r ++ rs.flatten) r.length
    rw [this, List.take_left]

theorem features_buildCollection {α : Type} (rs : List (List α)) :
    (buildCollection rs).features = rs := by
  have := features_buildCollection_aux rs []
  simpa [buildCollection, features] using this

theorem chain'_offsetsFrom {α : Type} (rs : List (List α)) (hne : ∀ r ∈ rs, r ≠ []) :
    ∀ b, List.Chain' (· < ·) (offsetsFrom b rs ++ [b + rs.flatten.length]) := by
  induction rs with
  | nil => intro b; simp
  | cons r rs ih =>
    intro b
    have hr : 0 < r.length :=
      List.length_pos.mpr (hne r (List.mem_cons_self _ _))
    have hrs : ∀ x ∈ rs, x ≠ [] := fun x hx => hne x (List.mem_cons_of_mem _ hx)
    have hflat : (r :: rs).flatten.length = r.length + rs.flatten.length := by simp
    rw [offsetsFrom_cons, hflat, List.cons_append, List.chain'_cons']
    constructor
    · intro y hy
      cases rs with
      | nil =>
        simp only [offsetsFrom_nil, List.nil_append, List.head?_cons,
          Option.mem_def, Option.some.injEq] at hy
        subst hy
        simp at hr ⊢
        omega
      | cons r2 rs' =>
        simp only [offsetsFrom_cons, List.cons_append, List.head?_cons,
          Option.mem_def, Option.some.injEq] at hy
        subst hy
        omega
    · have := ih hrs (b + r.length)
      have harith : b + (r.length + rs.flatten.length)
          = (b + r.length) + rs.flatten.length := by omega
      rw [harith]
      exact this

theorem valid_buildCollection {α : Type} (rs : List (List α))
    (hne : ∀ r ∈ rs, r ≠ []) : (buildCollection rs).ValidProp := by
  refine ⟨by simp [buildCollection], ?_, ?_⟩
  · have := chain'_offsetsFrom rs hne 0
    simpa [buildCollection] using this
  · simp [buildCollection, List.getLast?_concat]

/-! ## Characterisation of the copying filters -/

theorem filterMaskGo_spec {α : Type} (coords : List α) :
    ∀ (pairs : List (Nat × Nat)) (flags : List Bool) (ffi : List Nat) (fc : List α),
      filterMaskGo coords (pairs.zip flags) ffi fc =
        (ffi ++ offsetsFrom fc.length
            (maskSelect flags (pairs.map fun se => subSlice coords se.1 se.2)),
          fc ++ (maskSelect flags (pairs.map fun se => subSlice coords se.1 se.2)).flatten) := by
  intro pairs
  induction pairs with
  | nil =>
    intro flags ffi fc
    cases flags <;> simp [filterMaskGo, maskSelect]
  | cons se pairs ih =>
    intro flags ffi fc
    cases flags with
    | nil => simp [filterMaskGo, maskSelect]
    | cons f fs =>
      obtain ⟨s, e⟩ := se
      rw [show ((s, e) :: pairs).zip (f :: fs) = ((s, e), f) :: pairs.zip fs from rfl]
      cases f with
      | true =>
        rw [show filterMaskGo coords (((s, e), true) :: pairs.zip fs) ffi fc
            = filterMaskGo coords (pairs.zip fs) (ffi ++ [fc.length])
                (fc ++ subSlice coords s e) from rfl]
        rw [ih fs]
        rw [List.map_cons,
          show maskSelect (true :: fs) (subSlice coords s e ::
              pairs.map fun se => subSlice coords se.1 se.2)
            = subSlice coords s e ::
                maskSelect fs (pairs.map fun se => subSlice coords se.1 se.2) from rfl]
        simp [List.append_assoc]
      | false =>
        rw [show filterMaskGo coords (((s, e), false) :: pairs.zip fs) ffi fc
            = filterMaskGo coords (pairs.zip fs) ffi fc from rfl]
        rw [ih fs]
        rw [List.map_cons,
          show maskSelect (false :: fs) (subSlice coords s e ::
              pairs.map fun se => subSlice coords se.1 se.2)
            = maskSelect fs (pairs.map fun se => subSlice coords se.1 se.2) from rfl]

theorem filterPredGo_spec {α : Type} (coords : List α) (p : List α → Bool) :
    ∀ (pairs : List (Nat × Nat)) (ffi : List Nat) (fc : List α),
      filterPredGo coords p pairs ffi fc =
        (ffi ++ offsetsFrom fc.length
            ((pairs.map fun se => subSlice coords se.1 se.2).filter p),
          fc ++ ((pairs.map fun se => subSlice coords se.1 se.2).filter p).flatten) := by
  intro pairs
  induction pairs with
  | nil => intro ffi fc; simp [filterPredGo]
  | cons se pairs ih =>
    intro ffi fc
    obtain ⟨s, e⟩ := se
    rw [show filterPredGo coords p ((s, e) :: pairs) ffi fc
        = (if p (subSlice coords s e) then
            filterPredGo coords p pairs (ffi ++ [fc.length]) (fc ++ subSlice coords s e)
          else filterPredGo coords p pairs ffi fc) from rfl]
    rw [List.map_cons, List.filter_cons]
    cases hp : p (subSlice coords s e) with
    | true =>
      rw [if_pos rfl, if_pos rfl, ih]
      simp [List.append_assoc]
    | false =>
      rw [if_neg Bool.false_ne_true, if_neg Bool.false_ne_true, ih]

theorem filter_eq_ok {α : Type} {pc : PointCollection α} {mask : List Bool}
    (hm : mask.length = pc.len) :
    pc.filter mask = .ok (buildCollection (maskSelect mask pc.features)) := by
  unfold filter
  rw [if_neg (by rw [len] at hm; omega)]
  rw [filterMaskGo_spec]
  unfold buildCollection features
  simp

theorem filter_with_predicate_eq {α : Type} (pc : PointCollection α) (p : List α → Bool) :
    pc.filter_with_predicate p = buildCollection (pc.features.filter p) := by
  unfold filter_with_predicate
  rw [filterPredGo_spec]
  unfold buildCollection features
  simp

/-! ## Characterisation of the in-place compaction loop

The key invariants (spec §4.4): the destination of every `copy_within` is at
or below its source, so each feature's slice is still the original data when
it is read, and the offsets at positions `≥ i` are still the original
offsets when iteration `i` reads them. -/

theorem inplaceGo_spec {α : Type} (dec : Nat → List α → Bool) (F : List Nat) (C : List α)
    (hch : List.Chain' (· < ·) F) (hlast : F.getLast? = some C.length) :
    ∀ (m i k cs : Nat) (out fiCur : List Nat) (csCur : List α),
      i + m + 1 = F.length →
      out.length = k →
      k ≤ i →
      fiCur = out ++ F.drop k →
      csCur.length = C.length →
      csCur.drop (F.getD i 0) = C.drop (F.getD i 0) →
      cs ≤ F.getD i 0 →
      (inplaceGo dec m i ⟨k, cs, fiCur, csCur⟩).featureIndex
          = k + (keptFrom dec F C i).length ∧
        (inplaceGo dec m i ⟨k, cs, fiCur, csCur⟩).coordinateStart
          = cs + (keptFrom dec F C i).flatten.length ∧
        (inplaceGo dec m i ⟨k, cs, fiCur, csCur⟩).fi
          = (out ++ offsetsFrom cs (keptFrom dec F C i))
              ++ F.drop (k + (keptFrom dec F C i).length) ∧
        (inplaceGo dec m i ⟨k, cs, fiCur, csCur⟩).coords.take
            (cs + (keptFrom dec F C i).flatten.length)
          = csCur.take cs ++ (keptFrom dec F C i).flatten ∧
        (inplaceGo dec m i ⟨k, cs, fiCur, csCur⟩).coords.length = C.length := by
  intro m
  induction m with
  | zero =>
    intro i k cs out fiCur csCur h1 h2 h3 h4 h5 h6 h7
    obtain ⟨x, hx⟩ : ∃ x, F.drop i = [x] := by
      have hlen : (F.drop i).length = 1 := by rw [List.length_drop]; omega
      cases hdrop : F.drop i with
      | nil => rw [hdrop] at hlen; simp at hlen
      | cons y t =>
        rw [hdrop] at hlen
        simp only [List.length_cons] at hlen
        have ht : t = [] := List.length_eq_zero.mp (by omega)
        exact ⟨y, by rw [ht]⟩
    have hkept : keptFrom dec F C i = [] := by
      simp only [keptFrom, hx, windows2_singleton, List.map_nil]
      rfl
    rw [show inplaceGo dec 0 i ⟨k, cs, fiCur, csCur⟩ = ⟨k, cs, fiCur, csCur⟩ from rfl]
    refine ⟨by simp [hkept], by simp [hkept], ?_, by simp [hkept], h5⟩
    simp only [hkept, offsetsFrom_nil, List.append_nil, List.length_nil, Nat.add_zero]
    exact h4
  | succ m ih =>
    intro i k cs out fiCur csCur h1 h2 h3 h4 h5 h6 h7
    obtain ⟨s, e, tl, hdrop⟩ : ∃ s e tl, F.drop i = s :: e :: tl := by
      have hlen : 2 ≤ (F.drop i).length := by rw [List.length_drop]; omega
      cases hd1 : F.drop i with
      | nil => rw [hd1] at hlen; simp at hlen
      | cons y t =>
        cases t with
        | nil => rw [hd1] at hlen; simp at hlen
        | cons z t' => exact ⟨y, z, t', rfl⟩
    have hFi : F.getD i 0 = s := getD_of_drop_cons hdrop 0
    have hdrop1 : F.drop (i + 1) = e :: tl := drop_succ_of_drop_cons hdrop
    have hFi1 : F.getD (i + 1) 0 = e := getD_of_drop_cons hdrop1 0
    have hchdrop : List.Chain' (· < ·) (s :: e :: tl) := by
      rw [← hdrop]
      exact hch.sublist (List.drop_sublist i F)
    have hse : s < e := (List.chain'_cons.mp hchdrop).1
    have hlastd : (e :: tl).getLast? = some C.length := by
      have := getLast?_drop F i (by omega)
      rw [hdrop, List.getLast?_cons_cons] at this
      rw [this, hlast]
    have heC : e ≤ C.length :=
      head_le_getLast (List.chain'_cons.mp hchdrop).2 e (by simp)
        C.length (Option.mem_def.mpr hlastd)
    have hcsS : cs ≤ s := by rw [hFi] at h7; exact h7
    have h6s : csCur.drop s = C.drop s := by rw [hFi] at h6; exact h6
    have hr1 : fiCur.getD i 0 = s := by
      rw [h4, List.getD_append_right out (F.drop k) 0 i (by omega), getD_drop, h2]
      rw [show k + (i - k) = i from by omega, hFi]
    have hr2 : fiCur.getD (i + 1) 0 = e := by
      rw [h4, List.getD_append_right out (F.drop k) 0 (i + 1) (by omega), getD_drop, h2]
      rw [show k + (i + 1 - k) = i + 1 from by omega, hFi1]
    have hslice : subSlice csCur s e = subSlice C s e := by
      unfold subSlice
      rw [h6s]
    have hrunlen : (subSlice C s e).length = e - s :=
      subSlice_length (Nat.le_of_lt hse) heC
    have hdropE : csCur.drop e = C.drop e := by
      calc csCur.drop e = (csCur.drop s).drop (e - s) := by
            rw [List.drop_drop]
            congr 1
            omega
        _ = (C.drop s).drop (e - s) := by rw [h6s]
        _ = C.drop e := by
            rw [List.drop_drop]
            congr 1
            omega
    have hkept : keptFrom dec F C i
        = if dec i (subSlice C s e) then
            subSlice C s e :: keptFrom dec F C (i + 1)
          else keptFrom dec F C (i + 1) := by
      simp only [keptFrom, hdrop, hdrop1, windows2_cons_cons, List.map_cons]
      rfl
    rw [show inplaceGo dec (m + 1) i ⟨k, cs, fiCur, csCur⟩
        = (if dec i (subSlice csCur (fiCur.getD i 0) (fiCur.getD (i + 1) 0)) then
            inplaceGo dec m (i + 1)
              (ipStep ⟨k, cs, fiCur, csCur⟩ (fiCur.getD i 0) (fiCur.getD (i + 1) 0))
          else inplaceGo dec m (i + 1) ⟨k, cs, fiCur, csCur⟩) from rfl]
    rw [hr1, hr2, hslice, hkept]
    cases hdec : dec i (subSlice C s e) with
    | true =>
      rw [if_pos rfl, if_pos rfl]
      rw [show ipStep ⟨k, cs, fiCur, csCur⟩ s e
          = (⟨k + 1, cs + (e - s), fiCur.set k cs, copyWithin csCur s e cs⟩ :
              IPState α) from rfl]
      have hbound : cs + (e - s) ≤ csCur.length := by rw [h5]; omega
      have heCs : e ≤ csCur.length := by rw [h5]; exact heC
      obtain ⟨d, dt, hdk⟩ : ∃ d dt, F.drop k = d :: dt := by
        cases hdk : F.drop k with
        | nil =>
          have := List.length_drop k F
          rw [hdk] at this
          simp at this
          omega
        | cons d dt => exact ⟨d, dt, rfl⟩
      have hdt : F.drop (k + 1) = dt := drop_succ_of_drop_cons hdk
      have h4' : fiCur.set k cs = (out ++ [cs]) ++ F.drop (k + 1) := by
        rw [hdt, h4, hdk, ← h2, set_append_len]
        simp
      have h5' : (copyWithin csCur s e cs).length = C.length := by
        rw [copyWithin_length (Nat.le_of_lt hse) heCs hbound, h5]
      have h6' : (copyWithin csCur s e cs).drop (F.getD (i + 1) 0)
          = C.drop (F.getD (i + 1) 0) := by
        rw [hFi1, copyWithin_drop (Nat.le_of_lt hse) heCs hbound (by omega), hdropE]
      have h7' : cs + (e - s) ≤ F.getD (i + 1) 0 := by rw [hFi1]; omega
      obtain ⟨c1, c2, c3, c4, c5⟩ :=
        ih (i + 1) (k + 1) (cs + (e - s)) (out ++ [cs]) (fiCur.set k cs)
          (copyWithin csCur s e cs) (by omega) (by simp [h2]) (by omega) h4' h5' h6' h7'
      refine ⟨?_, ?_, ?_, ?_, c5⟩
      · rw [c1]
        simp only [List.length_cons]
        omega
      · rw [c2]
        simp only [List.flatten_cons, List.length_append, hrunlen]
        omega
      · rw [c3]
        rw [show k + (subSlice C s e :: keptFrom dec F C (i + 1)).length
            = (k + 1) + (keptFrom dec F C (i + 1)).length from by simp; omega]
        rw [offsetsFrom_cons, hrunlen]
        simp [List.append_assoc]
      · rw [show cs + ((subSlice C s e :: keptFrom dec F C (i + 1)).flatten).length
            = (cs + (e - s)) + (keptFrom dec F C (i + 1)).flatten.length from by
            simp [hrunlen]; omega]
        rw [c4, copyWithin_take (Nat.le_of_lt hse) heCs hbound]
        have : (csCur.drop s).take (e - s) = subSlice C s e := by
          rw [← hslice]
          rfl
        rw [this, List.flatten_cons, List.append_assoc]
    | false =>
      rw [if_neg Bool.false_ne_true, if_neg Bool.false_ne_true]
      have h6' : csCur.drop (F.getD (i + 1) 0) = C.drop (F.getD (i + 1) 0) := by
        rw [hFi1, hdropE]
      have h7' : cs ≤ F.getD (i + 1) 0 := by rw [hFi1]; omega
      exact ih (i + 1) k cs out fiCur csCur (by omega) h2 (by omega) h4 h5 h6' h7'

theorem features_length {α : Type} (pc : PointCollection α) :
    pc.features.length = pc.feature_indices.length - 1 := by
  simp [features, windows2_length]

theorem inplaceFinish_spec {α : Type} (dec : Nat → List α → Bool)
    {pc : PointCollection α} (hv : pc.ValidProp) :
    inplaceFinish (inplaceGo dec (pc.feature_indices.length - 1) 0
        ⟨0, 0, pc.feature_indices, pc.coordinates⟩)
      = buildCollection (selectIdx dec 0 pc.features) := by
  have hpos : 0 < pc.feature_indices.length := List.length_pos.mpr hv.1
  obtain ⟨c1, c2, c3, c4, c5⟩ :=
    inplaceGo_spec dec pc.feature_indices pc.coordinates hv.2.1 hv.2.2
      (pc.feature_indices.length - 1) 0 0 0 [] pc.feature_indices pc.coordinates
      (by omega) rfl (Nat.le_refl 0) (by simp) rfl rfl (Nat.zero_le _)
  have hkept0 : keptFrom dec pc.feature_indices pc.coordinates 0
      = selectIdx dec 0 pc.features := by
    simp [keptFrom, features]
  set st := inplaceGo dec (pc.feature_indices.length - 1) 0
    ⟨0, 0, pc.feature_indices, pc.coordinates⟩ with hst
  set kept := selectIdx dec 0 pc.features with hkeptdef
  rw [hkept0] at c1 c2 c3 c4
  simp only [Nat.zero_add, List.nil_append] at c1 c2 c3 c4
  have hkle : kept.length ≤ pc.feature_indices.length - 1 := by
    have h1 := selectIdx_length_le dec 0 pc.features
    rw [← hkeptdef] at h1
    have h2 := features_length pc
    omega
  obtain ⟨d, dt, hdk⟩ : ∃ d dt, pc.feature_indices.drop kept.length = d :: dt := by
    cases hdk : pc.feature_indices.drop kept.length with
    | nil =>
      have := List.length_drop kept.length pc.feature_indices
      rw [hdk] at this
      simp at this
      omega
    | cons d dt => exact ⟨d, dt, rfl⟩
  have hfi : st.fi = offsetsFrom 0 kept ++ (d :: dt) := by
    rw [c3, hdk]
  have hset : (offsetsFrom 0 kept ++ d :: dt).set kept.length kept.flatten.length
      = offsetsFrom 0 kept ++ kept.flatten.length :: dt := by
    have h := set_append_len (offsetsFrom 0 kept) d dt kept.flatten.length
    rw [offsetsFrom_length] at h
    exact h
  have htake : (offsetsFrom 0 kept
        ++ kept.flatten.length :: dt).take (kept.length + 1)
      = offsetsFrom 0 kept ++ [kept.flatten.length] := by
    have h := take_append_len1 (offsetsFrom 0 kept) kept.flatten.length dt
    rw [offsetsFrom_length] at h
    exact h
  have hcoords : st.coords.take kept.flatten.length = kept.flatten := by
    simpa using c4
  unfold inplaceFinish
  rw [c1, c2, hfi, hset, htake, hcoords]
  rfl

theorem inplaceMaskGo_eq_inplaceGo {α : Type} (mask : List Bool) :
    ∀ (flags : List Bool) (i : Nat) (st : IPState α),
      mask.drop i = flags →
      inplaceMaskGo flags i st
        = inplaceGo (fun j _ => mask.getD j false) flags.length i st := by
  intro flags
  induction flags with
  | nil => intro i st _; rfl
  | cons f fs ih =>
    intro i st hdrop
    have hget : mask.getD i false = f := getD_of_drop_cons hdrop false
    have hrest : mask.drop (i + 1) = fs := drop_succ_of_drop_cons hdrop
    rw [show inplaceMaskGo (f :: fs) i st
        = (if f then
            inplaceMaskGo fs (i + 1) (ipStep st (st.fi.getD i 0) (st.fi.getD (i + 1) 0))
          else inplaceMaskGo fs (i + 1) st) from rfl]
    rw [show inplaceGo (fun j _ => mask.getD j false) (f :: fs).length i st
        = (if mask.getD i false then
            inplaceGo (fun j _ => mask.getD j false) fs.length (i + 1)
              (ipStep st (st.fi.getD i 0) (st.fi.getD (i + 1) 0))
          else inplaceGo (fun j _ => mask.getD j false) fs.length (i + 1) st) from rfl]
    rw [hget]
    cases f with
    | true => rw [if_pos rfl, if_pos rfl, ih (i + 1) _ hrest]
    | false =>
      rw [if_neg Bool.false_ne_true, if_neg Bool.false_ne_true, ih (i + 1) _ hrest]

theorem filter_inplace_eq {α : Type} {pc : PointCollection α} {mask : List Bool}
    (hv : pc.ValidProp) (hm : mask.length = pc.len) :
    pc.filter_inplace mask = (buildCollection (maskSelect mask pc.features), none) := by
  have hm' : mask.length = pc.feature_indices.length - 1 := by rw [len] at hm; omega
  unfold filter_inplace
  rw [if_neg (by omega)]
  rw [inplaceMaskGo_eq_inplaceGo mask mask 0 _ (by simp)]
  rw [hm', inplaceFinish_spec _ hv]
  rw [selectIdx_mask mask pc.features 0 (by rw [features_length]; omega)]
  rw [List.drop_zero]

theorem filter_inplace_with_predicate_eq {α : Type} {pc : PointCollection α}
    (p : List α → Bool) (hv : pc.ValidProp) :
    pc.filter_inplace_with_predicate p = buildCollection (pc.features.filter p) := by
  unfold filter_inplace_with_predicate
  rw [inplaceFinish_spec (fun _ run => p run) hv, selectIdx_pred]

/-! ## `remove_last_feature` -/

theorem remove_last_feature_fail {α : Type} {pc : PointCollection α}
    (h : pc.feature_indices.length ≤ 1) :
    pc.remove_last_feature = (pc, some .DeleteFromEmpty) := by
  unfold remove_last_feature
  rw [if_pos h]

theorem remove_last_feature_ok {α : Type} {pc : PointCollection α}
    (h : 1 < pc.feature_indices.length) :
    pc.remove_last_feature
      = (⟨pc.feature_indices.dropLast,
          pc.coordinates.take (pc.feature_indices.dropLast.getLast?.getD 0)⟩, none) := by
  unfold remove_last_feature
  rw [if_neg (by omega)]

theorem dropLast_getLast_lt {α : Type} {pc : PointCollection α} (hv : pc.ValidProp) :
    ∀ x ∈ pc.feature_indices.dropLast.getLast?, x < pc.coordinates.length := by
  intro x hx
  have hne : pc.feature_indices ≠ [] := hv.1
  have hsplit := List.dropLast_append_getLast hne
  have hch := hv.2.1
  rw [← hsplit] at hch
  rw [List.chain'_append] at hch
  have hlt := hch.2.2 x hx (pc.feature_indices.getLast hne) (by simp)
  have hlast : pc.feature_indices.getLast hne = pc.coordinates.length := by
    have h1 := List.getLast?_eq_getLast pc.feature_indices hne
    rw [hv.2.2] at h1
    exact (Option.some_inj.mp h1).symm
  rw [← hlast]
  exact hlt

theorem dropLast_ne_nil {α : Type} {pc : PointCollection α}
    (h : 1 < pc.feature_indices.length) : pc.feature_indices.dropLast ≠ [] := by
  intro hnil
  have := List.length_dropLast pc.feature_indices
  rw [hnil] at this
  simp at this
  omega

theorem remove_last_feature_valid {α : Type} {pc : PointCollection α}
    (hv : pc.ValidProp) (h : 1 < pc.feature_indices.length) :
    (pc.remove_last_feature).1.ValidProp := by
  rw [remove_last_feature_ok h]
  have hne' := dropLast_ne_nil h
  obtain ⟨x, hx⟩ : ∃ x, pc.feature_indices.dropLast.getLast? = some x := by
    cases hgl : pc.feature_indices.dropLast.getLast? with
    | none => exact absurd (List.getLast?_eq_none_iff.mp hgl) hne'
    | some x => exact ⟨x, rfl⟩
  have hxlt : x < pc.coordinates.length :=
    dropLast_getLast_lt hv x (Option.mem_def.mpr hx)
  refine ⟨hne', hv.2.1.sublist (List.dropLast_sublist _), ?_⟩
  rw [hx]
  simp only [Option.getD_some, List.length_take]
  congr 1
  omega

theorem features_truncate {α : Type} {pc : PointCollection α} (hv : pc.ValidProp)
    (h : 1 < pc.feature_indices.length) :
    (pc.remove_last_feature).1.features = pc.features.dropLast := by
  rw [remove_last_feature_ok h]
  have hne' := dropLast_ne_nil h
  obtain ⟨x, hx⟩ : ∃ x, pc.feature_indices.dropLast.getLast? = some x := by
    cases hgl : pc.feature_indices.dropLast.getLast? with
    | none => exact absurd (List.getLast?_eq_none_iff.mp hgl) hne'
    | some x => exact ⟨x, rfl⟩
  have hchd : List.Chain' (· < ·) pc.feature_indices.dropLast :=
    hv.2.1.sublist (List.dropLast_sublist _)
  simp only [features, hx, Option.getD_some]
  rw [← List.map_dropLast, ← windows2_dropLast]
  apply List.map_congr_left
  intro se hse
  have hb := windows2_bounds hchd se hse
  exact subSlice_take (hb.2 x (Option.mem_def.mpr hx))

/-! ## Validity preservation of growth operations -/

theorem new_valid {α : Type} : (new : PointCollection α).ValidProp := by
  refine ⟨by simp [new], by simp [new], by simp [new]⟩

theorem add_point_valid {α : Type} {pc : PointCollection α} (hv : pc.ValidProp)
    (c : α) : (pc.add_point c).ValidProp := by
  unfold add_point
  refine ⟨by simp, ?_, by simp [List.getLast?_concat]⟩
  rw [List.chain'_append]
  refine ⟨hv.2.1, List.chain'_singleton _, ?_⟩
  intro a ha y hy
  rw [hv.2.2] at ha
  simp only [Option.mem_def, Option.some_inj] at ha
  simp only [List.head?_cons, Option.mem_def, Option.some_inj] at hy
  simp only [List.length_append, List.length_cons, List.length_nil] at hy
  omega

theorem add_multipoint_valid {α : Type} {pc : PointCollection α} (hv : pc.ValidProp)
    (cs : List α) : (pc.add_multipoint cs).ValidProp := by
  unfold add_multipoint
  cases hcs : cs.isEmpty with
  | true => rw [if_pos rfl]; exact hv
  | false =>
    rw [if_neg Bool.false_ne_true]
    have hlen : 0 < cs.length := by
      cases cs with
      | nil => simp at hcs
      | cons c cs' => simp
    refine ⟨by simp, ?_, by simp [List.getLast?_concat]⟩
    rw [List.chain'_append]
    refine ⟨hv.2.1, List.chain'_singleton _, ?_⟩
    intro a ha y hy
    rw [hv.2.2] at ha
    simp only [Option.mem_def, Option.some_inj] at ha
    simp only [List.head?_cons, Option.mem_def, Option.some_inj] at hy
    simp only [List.length_append] at hy
    omega

theorem from_data_ok_valid {α : Type} {fi : List Nat} {cs : List α}
    {c : PointCollection α} (h : from_data fi cs = .ok c) : c.ValidProp := by
  unfold from_data at h
  by_cases hval : (⟨fi, cs⟩ : PointCollection α).is_valid = true
  · rw [if_pos hval] at h
    cases h
    exact (is_valid_iff _).mp hval
  · rw [if_neg hval] at h
    cases h

/-! ## Run lengths and `is_simple` -/

theorem sum_windows2_diffs :
    ∀ (t : List Nat) (a : Nat), List.Chain' (· < ·) (a :: t) →
      ∀ z ∈ (a :: t).getLast?,
        (((windows2 (a :: t)).map fun se => se.2 - se.1).sum) = z - a := by
  intro t
  induction t with
  | nil =>
    intro a _ z hz
    simp only [List.getLast?_singleton, Option.mem_def, Option.some_inj] at hz
    subst hz
    simp
  | cons b t' ih =>
    intro a hch z hz
    rw [List.getLast?_cons_cons] at hz
    rw [List.chain'_cons] at hch
    have hab : a < b := hch.1
    have hbz : b ≤ z := head_le_getLast hch.2 b (by simp) z hz
    rw [windows2_cons_cons, List.map_cons, List.sum_cons, ih b hch.2 z hz]
    omega

theorem length_le_sum {ds : List Nat} (hpos : ∀ d ∈ ds, 1 ≤ d) :
    ds.length ≤ ds.sum := by
  induction ds with
  | nil => simp
  | cons d ds ih =>
    have h1 := hpos d (List.mem_cons_self _ _)
    have h2 := ih fun x hx => hpos x (List.mem_cons_of_mem _ hx)
    simp only [List.length_cons, List.sum_cons]
    omega

theorem all_ones_of_sum {ds : List Nat} (hpos : ∀ d ∈ ds, 1 ≤ d) :
    ds.sum = ds.length ↔ ∀ d ∈ ds, d = 1 := by
  induction ds with
  | nil => simp
  | cons d ds ih =>
    have h1 := hpos d (List.mem_cons_self _ _)
    have hpos' : ∀ x ∈ ds, 1 ≤ x := fun x hx => hpos x (List.mem_cons_of_mem _ hx)
    have h2 := length_le_sum hpos'
    simp only [List.sum_cons, List.length_cons, List.mem_cons]
    constructor
    · intro hsum
      have hd1 : d = 1 := by omega
      have : ds.sum = ds.length := by omega
      intro x hx
      rcases hx with rfl | hx
      · exact hd1
      · exact ((ih hpos').mp this) x hx
    · intro hall
      have hd1 : d = 1 := hall d (Or.inl rfl)
      have : ds.sum = ds.length :=
        (ih hpos').mpr fun x hx => hall x (Or.inr hx)
      omega

/-! ## Failure cases of the filters -/

theorem filter_fail {α : Type} {pc : PointCollection α} {mask : List Bool}
    (hm : mask.length ≠ pc.len) :
    pc.filter mask = .error .MaskDoesNotMatchFeatures := by
  unfold filter
  rw [if_pos (show mask.length ≠ pc.feature_indices.length - 1 from hm)]

theorem filter_inplace_fail {α : Type} {pc : PointCollection α} {mask : List Bool}
    (hm : mask.length ≠ pc.len) :
    pc.filter_inplace mask = (pc, some .MaskDoesNotMatchFeatures) := by
  unfold filter_inplace
  rw [if_pos (show mask.length ≠ pc.feature_indices.length - 1 from hm)]

end PointCollection

/-! # Claims -/

open PointCollection

/-- C1: for every valid `PointCollection` and every boolean mask whose
length equals `len()`, `filter(mask)` returns `Ok` of a collection whose
features are exactly the coordinate runs of the original features at the
mask's `true` indices, in the original relative order. -/
theorem claim_C1 {α : Type} (pc : PointCollection α) (mask : List Bool)
    (hv : pc.is_valid = true) (hm : mask.length = pc.len) :
    ∃ c, pc.filter mask = .ok c ∧ c.features = maskSelect mask pc.features :=
  ⟨buildCollection (maskSelect mask pc.features), filter_eq_ok hm,
    features_buildCollection _⟩

theorem claim_C1_witness :
    ∃ c, (⟨[0, 1, 3], [10, 20, 30]⟩ : PointCollection Nat).filter [true, false]
        = .ok c ∧
      c.features = maskSelect [true, false]
        (⟨[0, 1, 3], [10, 20, 30]⟩ : PointCollection Nat).features :=
  claim_C1 _ _ (by decide) (by decide)

/-- C2: on every valid `PointCollection` the in-place filters compute the
same result as the copying ones: with a mask of matching length,
`filter_inplace` succeeds and its post-state is the collection `filter`
returns; and for every predicate, the post-state of
`filter_inplace_with_predicate` is the collection `filter_with_predicate`
returns (each predicate is applied to the feature's original slice, since
every compaction copy has destination offset at or below its source). -/
theorem claim_C2 {α : Type} (pc : PointCollection α) (hv : pc.is_valid = true) :
    (∀ mask : List Bool, mask.length = pc.len →
      pc.filter mask = .ok (pc.filter_inplace mask).1 ∧
        (pc.filter_inplace mask).2 = none) ∧
    (∀ p : List α → Bool,
      pc.filter_inplace_with_predicate p = pc.filter_with_predicate p) := by
  have hv' := (is_valid_iff pc).mp hv
  constructor
  · intro mask hm
    rw [filter_inplace_eq hv' hm, filter_eq_ok hm]
    exact ⟨rfl, rfl⟩
  · intro p
    rw [filter_inplace_with_predicate_eq p hv', filter_with_predicate_eq]

theorem claim_C2_witness :
    (⟨[0, 1, 3], [10, 20, 30]⟩ : PointCollection Nat).filter [true, false]
        = .ok ((⟨[0, 1, 3], [10, 20, 30]⟩ :
            PointCollection Nat).filter_inplace [true, false]).1 ∧
      ((⟨[0, 1, 3], [10, 20, 30]⟩ :
          PointCollection Nat).filter_inplace [true, false]).2 = none :=
  (claim_C2 _ (by decide)).1 [true, false] (by decide)

/-- C3: every mutator preserves the `is_valid` invariant, and every
constructor/filter output satisfies it: `add_point`, `add_multipoint`, a
successful `remove_last_feature`, a successful `filter_inplace`, and
`filter_inplace_with_predicate` preserve validity; `new`, a successful
`from_data`, a successful `filter`, and `filter_with_predicate` produce
valid collections. -/
theorem claim_C3 {α : Type} (pc : PointCollection α) (hv : pc.is_valid = true) :
    (∀ c : α, (pc.add_point c).is_valid = true) ∧
    (∀ cs : List α, (pc.add_multipoint cs).is_valid = true) ∧
    (0 < pc.len → (pc.remove_last_feature).1.is_valid = true) ∧
    (∀ mask : List Bool, mask.length = pc.len →
      (pc.filter_inplace mask).1.is_valid = true) ∧
    (∀ p : List α → Bool,
      (pc.filter_inplace_with_predicate p).is_valid = true) ∧
    ((new : PointCollection α).is_valid = true) ∧
    (∀ (fi : List Nat) (cs : List α) (c : PointCollection α),
      from_data fi cs = .ok c → c.is_valid = true) ∧
    (∀ (mask : List Bool) (c : PointCollection α),
      pc.filter mask = .ok c → c.is_valid = true) ∧
    (∀ p : List α → Bool, (pc.filter_with_predicate p).is_valid = true) := by
  have hv' := (is_valid_iff pc).mp hv
  have hmaskValid : ∀ mask : List Bool,
      (buildCollection (maskSelect mask pc.features)).is_valid = true := by
    intro mask
    exact (is_valid_iff _).mpr (valid_buildCollection _
      fun r hr => features_ne_nil hv' r (maskSelect_subset mask _ r hr))
  have hpredValid : ∀ p : List α → Bool,
      (buildCollection (pc.features.filter p)).is_valid = true := by
    intro p
    exact (is_valid_iff _).mpr (valid_buildCollection _
      fun r hr => features_ne_nil hv' r (List.mem_of_mem_filter hr))
  refine ⟨?_, ?_, ?_, ?_, ?_, ?_, ?_, ?_, ?_⟩
  · intro c
    exact (is_valid_iff _).mpr (add_point_valid hv' c)
  · intro cs
    exact (is_valid_iff _).mpr (add_multipoint_valid hv' cs)
  · intro hpos
    have hgt : 1 < pc.feature_indices.length := by
      have := List.length_pos.mpr hv'.1
      rw [len] at hpos
      omega
    exact (is_valid_iff _).mpr (remove_last_feature_valid hv' hgt)
  · intro mask hm
    rw [filter_inplace_eq hv' hm]
    exact hmaskValid mask
  · intro p
    rw [filter_inplace_with_predicate_eq p hv']
    exact hpredValid p
  · exact (is_valid_iff _).mpr new_valid
  · intro fi cs c hok
    exact (is_valid_iff _).mpr (from_data_ok_valid hok)
  · intro mask c hok
    by_cases hm : mask.length = pc.len
    · rw [filter_eq_ok hm] at hok
      cases hok
      exact hmaskValid mask
    · rw [filter_fail hm] at hok
      cases hok
  · intro p
    rw [filter_with_predicate_eq]
    exact hpredValid p

theorem claim_C3_witness :
    ((⟨[0, 1], [10]⟩ : PointCollection Nat).add_point 7).is_valid = true :=
  (claim_C3 _ (by decide)).1 7

/-- C4: `from_data(offsets, coordinates)` returns `Ok` iff the offsets are
non-empty, strictly increasing pairwise, and end with the coordinate count;
otherwise it returns the `UnmatchedFeatureIndices` error.  A successful
result wraps exactly the given buffers. -/
theorem claim_C4 {α : Type} (fi : List Nat) (cs : List α) :
    ((∃ c, from_data fi cs = .ok c) ↔
      (fi ≠ [] ∧ List.Pairwise (· < ·) fi ∧ fi.getLast? = some cs.length)) ∧
    (¬(fi ≠ [] ∧ List.Pairwise (· < ·) fi ∧ fi.getLast? = some cs.length) →
      from_data fi cs = .error .UnmatchedFeatureIndices) ∧
    (∀ c, from_data fi cs = .ok c → c = ⟨fi, cs⟩) := by
  have hfd : from_data fi cs
      = (if (⟨fi, cs⟩ : PointCollection α).is_valid then .ok ⟨fi, cs⟩
          else .error .UnmatchedFeatureIndices) := rfl
  have hprop : (fi ≠ [] ∧ List.Pairwise (· < ·) fi ∧ fi.getLast? = some cs.length)
      ↔ (⟨fi, cs⟩ : PointCollection α).ValidProp := by
    unfold ValidProp
    rw [List.chain'_iff_pairwise]
  by_cases hval : (⟨fi, cs⟩ : PointCollection α).is_valid = true
  · rw [hfd, if_pos hval]
    refine ⟨?_, ?_, ?_⟩
    · exact ⟨fun _ => hprop.mpr ((is_valid_iff _).mp hval), fun _ => ⟨_, rfl⟩⟩
    · intro hc
      exact absurd (hprop.mpr ((is_valid_iff _).mp hval)) hc
    · intro c hc
      exact (Except.ok.inj hc).symm
  · rw [hfd, if_neg hval]
    refine ⟨?_, fun _ => rfl, ?_⟩
    · constructor
      · rintro ⟨c, hc⟩
        cases hc
      · intro hp
        exact absurd ((is_valid_iff _).mpr (hprop.mp hp)) hval
    · intro c hc
      cases hc

theorem claim_C4_witness :
    from_data ([] : List Nat) ([] : List Nat) = .error .UnmatchedFeatureIndices :=
  (claim_C4 [] []).2.1 (by decide)

/-- C5: for every valid collection, `filter` and `filter_inplace` fail, with
`MaskDoesNotMatchFeatures`, exactly when the mask length differs from
`len()`; this is the only failure mode, and on failure `filter_inplace`
leaves the receiver completely unmodified (failure is detected before any
mutation). -/
theorem claim_C5 {α : Type} (pc : PointCollection α) (mask : List Bool)
    (hv : pc.is_valid = true) :
    ((∃ err, pc.filter mask = .error err) ↔ mask.length ≠ pc.len) ∧
    ((pc.filter_inplace mask).2.isSome = true ↔ mask.length ≠ pc.len) ∧
    (mask.length ≠ pc.len →
      pc.filter mask = .error .MaskDoesNotMatchFeatures ∧
        pc.filter_inplace mask = (pc, some .MaskDoesNotMatchFeatures)) := by
  have hv' := (is_valid_iff pc).mp hv
  refine ⟨⟨?_, ?_⟩, ⟨?_, ?_⟩, ?_⟩
  · rintro ⟨err, herr⟩ hm
    rw [filter_eq_ok hm] at herr
    cases herr
  · intro hm
    exact ⟨.MaskDoesNotMatchFeatures, filter_fail hm⟩
  · intro hsome hm
    rw [filter_inplace_eq hv' hm] at hsome
    simp at hsome
  · intro hm
    rw [filter_inplace_fail hm]
    rfl
  · intro hm
    exact ⟨filter_fail hm, filter_inplace_fail hm⟩

theorem claim_C5_witness :
    (⟨[0, 1], [10]⟩ : PointCollection Nat).filter []
        = .error .MaskDoesNotMatchFeatures ∧
      (⟨[0, 1], [10]⟩ : PointCollection Nat).filter_inplace []
        = (⟨[0, 1], [10]⟩, some .MaskDoesNotMatchFeatures) :=
  (claim_C5 _ [] (by decide)).2.2 (by decide)

/-- C8: `remove_last_feature` fails with `DeleteFromEmpty` exactly when the
collection has zero features, leaving the receiver untouched; on a
non-empty valid collection it succeeds, popping the trailing offset,
truncating the coordinates to the new last offset, decrementing `len` by
one, and leaving all lower-index features unchanged. -/
theorem claim_C8 {α : Type} (pc : PointCollection α) (hv : pc.is_valid = true) :
    ((pc.remove_last_feature).2.isSome = true ↔ pc.len = 0) ∧
    (pc.len = 0 → pc.remove_last_feature = (pc, some .DeleteFromEmpty)) ∧
    (0 < pc.len →
      (pc.remove_last_feature).2 = none ∧
      (pc.remove_last_feature).1.feature_indices = pc.feature_indices.dropLast ∧
      (pc.remove_last_feature).1.coordinates
        = pc.coordinates.take (pc.feature_indices.dropLast.getLast?.getD 0) ∧
      (pc.remove_last_feature).1.len = pc.len - 1 ∧
      (pc.remove_last_feature).1.features = pc.features.dropLast) := by
  have hv' := (is_valid_iff pc).mp hv
  have hpos : 0 < pc.feature_indices.length := List.length_pos.mpr hv'.1
  refine ⟨⟨?_, ?_⟩, ?_, ?_⟩
  · intro hsome
    by_cases hlen : pc.feature_indices.length ≤ 1
    · rw [len]; omega
    · rw [remove_last_feature_ok (by omega)] at hsome
      simp at hsome
  · intro hzero
    rw [remove_last_feature_fail (by rw [len] at hzero; omega)]
    rfl
  · intro hzero
    rw [remove_last_feature_fail (by rw [len] at hzero; omega)]
  · intro hgt
    have hgt' : 1 < pc.feature_indices.length := by rw [len] at hgt; omega
    have hfeat := features_truncate hv' hgt'
    rw [remove_last_feature_ok hgt'] at hfeat ⊢
    refine ⟨rfl, rfl, rfl, ?_, hfeat⟩
    simp only [len, List.length_dropLast]

theorem claim_C8_witness :
    ((⟨[0, 1, 3], [10, 20, 30]⟩ : PointCollection Nat).remove_last_feature).1.features
      = (⟨[0, 1, 3], [10, 20, 30]⟩ : PointCollection Nat).features.dropLast :=
  ((claim_C8 _ (by decide)).2.2 (by decide)).2.2.2.2

/-- C9 counterexample: the collection `⟨[1, 2], [10, 20]⟩` is valid
(`is_valid` does not force the first offset to be 0), every one of its
features has a coordinate range of length exactly 1, yet `is_simple()`
returns `false` — so "`is_simple` iff every feature's range has length 1"
fails on valid collections as stated. -/
theorem claim_C9_counterexample :
    (⟨[1, 2], [10, 20]⟩ : PointCollection Nat).is_valid = true ∧
    (∀ r ∈ (⟨[1, 2], [10, 20]⟩ : PointCollection Nat).features, r.length = 1) ∧
    (⟨[1, 2], [10, 20]⟩ : PointCollection Nat).is_simple = false := by
  refine ⟨by decide, by decide, by decide⟩

/-- C9 (amended): for every valid `PointCollection` whose first offset is 0
(which every provided constructor guarantees), `is_simple()` returns `true`
iff every feature's coordinate range has length exactly 1.  (Without the
first-offset condition the count equation `feature_indices.len() - 1 ==
coordinates.len()` undercounts by the leading garbage prefix, see the
counterexample.) -/
theorem claim_C9 {α : Type} (pc : PointCollection α) (hv : pc.is_valid = true)
    (h0 : pc.feature_indices.head? = some 0) :
    pc.is_simple = true ↔ ∀ r ∈ pc.features, r.length = 1 := by
  have hv' := (is_valid_iff pc).mp hv
  obtain ⟨f0, rest, hfi⟩ : ∃ f0 rest, pc.feature_indices = f0 :: rest := by
    cases hfi : pc.feature_indices with
    | nil => rw [hfi] at h0; simp at h0
    | cons f0 rest => exact ⟨f0, rest, rfl⟩
  have hf0 : f0 = 0 := by
    rw [hfi] at h0
    simpa using h0
  subst hf0
  have hsum : (((windows2 pc.feature_indices).map fun se => se.2 - se.1).sum)
      = pc.coordinates.length := by
    have h := sum_windows2_diffs rest 0 (by rw [← hfi]; exact hv'.2.1)
      pc.coordinates.length (by rw [← hfi]; exact Option.mem_def.mpr hv'.2.2)
    rw [hfi]
    omega
  have hpos : ∀ d ∈ (windows2 pc.feature_indices).map fun se => se.2 - se.1,
      1 ≤ d := by
    intro d hd
    rw [List.mem_map] at hd
    obtain ⟨se, hse, rfl⟩ := hd
    have := (windows2_bounds hv'.2.1 se hse).1
    omega
  have hlen : ((windows2 pc.feature_indices).map fun se => se.2 - se.1).length
      = pc.feature_indices.length - 1 := by
    rw [List.length_map, windows2_length]
  have hkey : pc.feature_indices.length - 1 = pc.coordinates.length
      ↔ ∀ d ∈ (windows2 pc.feature_indices).map fun se => se.2 - se.1, d = 1 := by
    rw [← hsum, ← hlen]
    constructor
    · intro h
      exact (all_ones_of_sum hpos).mp h.symm
    · intro h
      exact ((all_ones_of_sum hpos).mpr h).symm
  have hiff2 : (∀ d ∈ (windows2 pc.feature_indices).map fun se => se.2 - se.1, d = 1)
      ↔ ∀ r ∈ pc.features, r.length = 1 := by
    constructor
    · intro h r hr
      simp only [features, List.mem_map] at hr
      obtain ⟨se, hse, rfl⟩ := hr
      rw [features_run_length hv' se hse]
      exact h _ (List.mem_map_of_mem _ hse)
    · intro h d hd
      rw [List.mem_map] at hd
      obtain ⟨se, hse, rfl⟩ := hd
      rw [← features_run_length hv' se hse]
      exact h _ (by simp only [features]; exact List.mem_map_of_mem _ hse)
  rw [show pc.is_simple
      = decide (pc.feature_indices.length - 1 = pc.coordinates.length) from rfl]
  rw [decide_eq_true_eq, hkey, hiff2]

theorem claim_C9_witness :
    (⟨[0, 1, 2], [10, 20]⟩ : PointCollection Nat).is_simple = true ↔
      ∀ r ∈ (⟨[0, 1, 2], [10, 20]⟩ : PointCollection Nat).features, r.length = 1 :=
  claim_C9 _ (by decide) (by decide)

/-- C6 counterexample: at the degenerate interval `a = b = [0, 0)`,
`partial_cmp` returns `Some(Equal)` (structural equality is checked first),
yet `a.end <= b.start` holds — so "`Some(Less)` iff `a.end <= b.start`"
fails as stated. -/
theorem claim_C6_counterexample :
    ¬((TimeInterval.cmpPartial ⟨0, 0⟩ ⟨0, 0⟩ = some Ordering.lt) ↔
      (TimeInterval.mk 0 0).end_ ≤ (TimeInterval.mk 0 0).start) := by decide

/-- C6 (amended): for all well-formed `TimeInterval`s (`start <= end`),
`partial_cmp` returns `Some(Equal)` iff the intervals are structurally
equal; `Some(Less)` iff they are distinct and `a.end <= b.start`;
`Some(Greater)` iff they are distinct and `a.start >= b.end`; and `None`
otherwise.  (The claim as stated omits the distinctness condition on
`Less`/`Greater`, which matters exactly for equal degenerate intervals;
see the counterexample.) -/
theorem claim_C6 (a b : TimeInterval) (ha : a.start ≤ a.end_)
    (hb : b.start ≤ b.end_) :
    (TimeInterval.cmpPartial a b = some Ordering.eq ↔ a = b) ∧
    (TimeInterval.cmpPartial a b = some Ordering.lt ↔
      a ≠ b ∧ a.end_ ≤ b.start) ∧
    (TimeInterval.cmpPartial a b = some Ordering.gt ↔
      a ≠ b ∧ a.start ≥ b.end_) ∧
    (TimeInterval.cmpPartial a b = none ↔
      a ≠ b ∧ ¬a.end_ ≤ b.start ∧ ¬a.start ≥ b.end_) := by
  obtain ⟨as, ae⟩ := a
  obtain ⟨bs, be⟩ := b
  simp only [TimeInterval.cmpPartial, TimeInterval.mk.injEq, ne_eq, ge_iff_le] at *
  split_ifs with h1 h2 h3 <;>
    simp_all <;>
    omega

theorem claim_C6_witness :
    (TimeInterval.cmpPartial ⟨0, 1⟩ ⟨1, 2⟩ = some Ordering.lt ↔
      (⟨0, 1⟩ : TimeInterval) ≠ ⟨1, 2⟩ ∧
        (TimeInterval.mk 0 1).end_ ≤ (TimeInterval.mk 1 2).start) :=
  (claim_C6 ⟨0, 1⟩ ⟨1, 2⟩ (by decide) (by decide)).2.1

/-- C7: `union(a, b)` succeeds iff the intervals intersect
(`a.start < b.end && a.end > b.start`) or are contiguous
(`a.start == b.end || a.end == b.start`), in which case the result is
`[min(starts), max(ends))`; otherwise it fails with `UnmatchedIntervals`. -/
theorem claim_C7 (a b : TimeInterval) :
    ((∃ c, TimeInterval.union a b = .ok c) ↔
      (TimeInterval.intersects a b = true ∨ a.start = b.end_ ∨ a.end_ = b.start)) ∧
    ((TimeInterval.intersects a b = true ∨ a.start = b.end_ ∨ a.end_ = b.start) →
      TimeInterval.union a b = .ok ⟨min a.start b.start, max a.end_ b.end_⟩) ∧
    (¬(TimeInterval.intersects a b = true ∨ a.start = b.end_ ∨ a.end_ = b.start) →
      TimeInterval.union a b = .error (.UnmatchedIntervals a b)) := by
  unfold TimeInterval.union
  by_cases h : (TimeInterval.intersects a b || decide (a.start = b.end_)
      || decide (a.end_ = b.start)) = true
  · have h' : TimeInterval.intersects a b = true
        ∨ a.start = b.end_ ∨ a.end_ = b.start := by
      simpa [Bool.or_eq_true, decide_eq_true_eq, or_assoc] using h
    rw [if_pos h]
    exact ⟨⟨fun _ => h', fun _ => ⟨_, rfl⟩⟩, fun _ => rfl, fun hc => absurd h' hc⟩
  · have h' : ¬(TimeInterval.intersects a b = true
        ∨ a.start = b.end_ ∨ a.end_ = b.start) := by
      intro hc
      apply h
      simpa [Bool.or_eq_true, decide_eq_true_eq, or_assoc] using hc
    rw [if_neg h]
    refine ⟨⟨?_, fun hc => absurd hc h'⟩, fun hc => absurd hc h', fun _ => rfl⟩
    rintro ⟨c, hc⟩
    cases hc

theorem claim_C7_witness :
    TimeInterval.union ⟨0, 2⟩ ⟨1, 3⟩ = .ok ⟨0, 3⟩ := by
  have h1 := (claim_C7 ⟨0, 2⟩ ⟨1, 3⟩).2.1 (by decide)
  rw [h1]
  congr 1

/-- C10: `partial_cmp(a, b)` is `None` exactly when the two intervals
intersect and are not structurally equal — distinct intervals are
incomparable iff they intersect.  (This holds for all interval values, no
well-formedness needed.) -/
theorem claim_C10 (a b : TimeInterval) :
    TimeInterval.cmpPartial a b = none ↔
      (TimeInterval.intersects a b = true ∧ a ≠ b) := by
  obtain ⟨as, ae⟩ := a
  obtain ⟨bs, be⟩ := b
  simp only [TimeInterval.cmpPartial, TimeInterval.intersects, Bool.and_eq_true,
    decide_eq_true_eq, ne_eq, TimeInterval.mk.injEq, gt_iff_lt]
  split_ifs with h1 h2 h3 <;> simp_all
